import Mathlib

/-!
# Verification of `SnowflakeList` (src/discord/utils.py)

`SnowflakeList` subclasses `array.array('Q')` (a contiguous store of
unsigned 64-bit integers).  We embed the container as a `List Nat`
(every `'Q'` element is a natural number below `2 ^ 64`, and all the
operations only compare and move elements, so `Nat` order coincides
with the machine order).

The Python methods embedded here:

* `__new__(cls, data, is_sorted=False)` —
  `array.array.__new__(cls, "Q", data if is_sorted else sorted(data))`
* `add(element)` — `i = bisect_left(self, element); self.insert(i, element)`
* `get(element)` — `i = bisect_left(self, element);
  return self[i] if i != len(self) and self[i] == element else None`
* `has(element)` — `i = bisect_left(self, element);
  return i != len(self) and self[i] == element`

`bisect_left` is the CPython `bisect.bisect_left` loop:

```
lo, hi = 0, len(a)
while lo < hi:
    mid = (lo + hi) // 2
    if a[mid] < x: lo = mid + 1
    else: hi = mid
return lo
```

We embed the loop with an explicit fuel argument (the loop runs at most
`len a` times because `hi - lo` strictly decreases), so that every
definition computes by kernel reduction.
-/

namespace SnowflakeList

/-- One step of the CPython `bisect_left` while-loop, with fuel.
Out-of-range reads are modelled by `List.getD _ _ 0`; the bounds proofs
below show the loop only ever reads in range. -/
def bisectLoop (a : List Nat) (x : Nat) : Nat → Nat → Nat → Nat
  | 0, lo, _hi => lo
  | fuel + 1, lo, hi =>
    if lo < hi then
      if a.getD ((lo + hi) / 2) 0 < x then
        bisectLoop a x fuel ((lo + hi) / 2 + 1) hi
      else
        bisectLoop a x fuel lo ((lo + hi) / 2)
    else lo

/-- `bisect.bisect_left(a, x)`: the loop starting from `lo = 0`,
`hi = len(a)`.  `len a` fuel suffices since `hi - lo` shrinks by at
least one per iteration. -/
def bisect_left (a : List Nat) (x : Nat) : Nat :=
  bisectLoop a x a.length 0 a.length

/-- Python `list.insert(i, x)` for a non-negative index:
`a[:i] + [x] + a[i:]` (indices past the end clamp, as in Python). -/
def insert_at (s : List Nat) (i : Nat) (x : Nat) : List Nat :=
  s.take i ++ x :: s.drop i

/-- `SnowflakeList.__new__`: store `data` as given when `is_sorted`,
otherwise store `sorted(data)` (Python's built-in stable ascending
sort, embedded as insertion sort). -/
def new (data : List Nat) (is_sorted : Bool) : List Nat :=
  if is_sorted then data else data.insertionSort (· ≤ ·)

/-- `SnowflakeList.add`. -/
def add (s : List Nat) (element : Nat) : List Nat :=
  insert_at s (bisect_left s element) element

/-- `SnowflakeList.get`.  Python's `None` becomes `Option.none`. -/
def get (s : List Nat) (element : Nat) : Option Nat :=
  let i := bisect_left s element
  if i ≠ s.length ∧ s.getD i 0 = element then some (s.getD i 0) else none

/-- `SnowflakeList.has`. -/
def has (s : List Nat) (element : Nat) : Bool :=
  let i := bisect_left s element
  i != s.length && (s.getD i 0 == element)

/-- The spec's "leftmost insertion point of `v` in `s`": the leftmost
index at which `v` can be inserted so that a sorted list stays sorted,
i.e. the number of elements strictly below `v`.  Stated from the
spec's words, to be compared with the code's `bisect_left`. -/
def leftmost_insertion_point (s : List Nat) (v : Nat) : Nat :=
  s.countP (fun a => decide (a < v))

example : bisect_left [1, 3, 5] 3 = 1 := by decide
example : bisect_left [1, 3, 5] 4 = 2 := by decide
example : bisect_left [1, 3, 5] 9 = 3 := by decide
example : bisect_left [] 7 = 0 := by decide
example : new [5, 1, 3] false = [1, 3, 5] := by decide
example : add [1, 3, 5] 3 = [1, 3, 3, 5] := by decide
example : has [1, 3, 3, 5] 3 = true := by decide
example : get [1, 3, 5] 4 = none := by decide
example : get [1, 3, 5] 5 = some 5 := by decide

/-! ## Binary-search bookkeeping -/

theorem sorted_getD_mono {a : List Nat} (hs : List.Sorted (· ≤ ·) a)
    {i j : Nat} (hij : i ≤ j) (hj : j < a.length) :
    a.getD i 0 ≤ a.getD j 0 := by
  rcases Nat.eq_or_lt_of_le hij with rfl | hlt
  · exact le_refl _
  · have hi : i < a.length := Nat.lt_trans hlt hj
    rw [List.getD_eq_getElem?_getD, List.getElem?_eq_getElem hi,
      List.getD_eq_getElem?_getD, List.getElem?_eq_getElem hj]
    exact List.pairwise_iff_getElem.mp hs i j hi hj hlt

/-- The loop result stays within `[lo, hi]`, for any list (sorted or
not) and any fuel. -/
theorem bisectLoop_bounds (a : List Nat) (x : Nat) :
    ∀ fuel lo hi, lo ≤ hi →
      lo ≤ bisectLoop a x fuel lo hi ∧ bisectLoop a x fuel lo hi ≤ hi := by
  intro fuel
  induction fuel with
  | zero => intro lo hi h; exact ⟨le_refl _, h⟩
  | succ n ih =>
    intro lo hi h
    simp only [bisectLoop]
    by_cases hlh : lo < hi
    · rw [if_pos hlh]
      by_cases hmid : a.getD ((lo + hi) / 2) 0 < x
      · rw [if_pos hmid]
        have := ih ((lo + hi) / 2 + 1) hi (by omega)
        exact ⟨by omega, this.2⟩
      · rw [if_neg hmid]
        have := ih lo ((lo + hi) / 2) (by omega)
        exact ⟨this.1, by omega⟩
    · rw [if_neg hlh]
      exact ⟨le_refl _, h⟩

/-- `bisect_left` never exceeds the length, for any list. -/
theorem bisect_left_le_length (a : List Nat) (x : Nat) :
    bisect_left a x ≤ a.length :=
  (bisectLoop_bounds a x a.length 0 a.length (Nat.zero_le _)).2

/-- Main loop invariant on a sorted list: with enough fuel, everything
strictly left of the result is `< x` and everything from the result on
is `≥ x`. -/
theorem bisectLoop_correct {a : List Nat} (x : Nat)
    (hs : List.Sorted (· ≤ ·) a) :
    ∀ fuel lo hi, hi - lo ≤ fuel → lo ≤ hi → hi ≤ a.length →
      (∀ j, j < lo → a.getD j 0 < x) →
      (∀ j, hi ≤ j → j < a.length → x ≤ a.getD j 0) →
      (∀ j, j < bisectLoop a x fuel lo hi → a.getD j 0 < x) ∧
      (∀ j, bisectLoop a x fuel lo hi ≤ j → j < a.length →
        x ≤ a.getD j 0) := by
  intro fuel
  induction fuel with
  | zero =>
    intro lo hi hfuel hlh _ hlt hge
    have : hi = lo := by omega
    subst this
    simp only [bisectLoop]
    exact ⟨hlt, hge⟩
  | succ n ih =>
    intro lo hi hfuel hlh hhi hlt hge
    simp only [bisectLoop]
    by_cases hcond : lo < hi
    · rw [if_pos hcond]
      have hmidlt : (lo + hi) / 2 < a.length := by omega
      by_cases hmid : a.getD ((lo + hi) / 2) 0 < x
      · rw [if_pos hmid]
        refine ih ((lo + hi) / 2 + 1) hi (by omega) (by omega) hhi ?_ hge
        intro j hj
        exact Nat.lt_of_le_of_lt (sorted_getD_mono hs (by omega) hmidlt) hmid
      · rw [if_neg hmid]
        refine ih lo ((lo + hi) / 2) (by omega) (by omega) (by omega) hlt ?_
        intro j hj hjlen
        exact Nat.le_trans (Nat.le_of_not_lt hmid)
          (sorted_getD_mono hs hj hjlen)
    · rw [if_neg hcond]
      have : lo = hi := by omega
      subst this
      exact ⟨hlt, hge⟩

/-- On a sorted list, every element strictly left of `bisect_left a x`
is `< x`. -/
theorem bisect_left_lt {a : List Nat} {x : Nat}
    (hs : List.Sorted (· ≤ ·) a) :
    ∀ j, j < bisect_left a x → a.getD j 0 < x :=
  (bisectLoop_correct x hs a.length 0 a.length (by omega) (Nat.zero_le _)
    (le_refl _) (by omega) (by omega)).1

/-- On a sorted list, every element at or right of `bisect_left a x`
is `≥ x`. -/
theorem bisect_left_ge {a : List Nat} {x : Nat}
    (hs : List.Sorted (· ≤ ·) a) :
    ∀ j, bisect_left a x ≤ j → j < a.length → x ≤ a.getD j 0 :=
  (bisectLoop_correct x hs a.length 0 a.length (by omega) (Nat.zero_le _)
    (le_refl _) (by omega) (by omega)).2

theorem getD_bridge {a : List Nat} {i : Nat} (h : i < a.length) :
    a.getD i 0 = a[i] := by
  rw [List.getD_eq_getElem?_getD, List.getElem?_eq_getElem h]
  rfl

theorem mem_take_imp {s : List Nat} {i b : Nat} (h : b ∈ s.take i) :
    ∃ j, j < i ∧ j < s.length ∧ s.getD j 0 = b := by
  obtain ⟨j, hj, hval⟩ := List.mem_iff_getElem.mp h
  have hjlen : j < s.length := by
    have := hj; simp only [List.length_take] at this; omega
  have hji : j < i := by
    have := hj; simp only [List.length_take] at this; omega
  refine ⟨j, hji, hjlen, ?_⟩
  rw [getD_bridge hjlen]
  simp only [List.getElem_take] at hval
  exact hval

theorem mem_drop_imp {s : List Nat} {i b : Nat} (h : b ∈ s.drop i) :
    ∃ j, i ≤ j ∧ j < s.length ∧ s.getD j 0 = b := by
  obtain ⟨j, hj, hval⟩ := List.mem_iff_getElem.mp h
  have hjlen : i + j < s.length := by
    have := hj; simp only [List.length_drop] at this; omega
  refine ⟨i + j, by omega, hjlen, ?_⟩
  rw [getD_bridge hjlen]
  rw [List.getElem_drop] at hval
  exact hval

theorem mem_imp_getD {s : List Nat} {b : Nat} (h : b ∈ s) :
    ∃ j, j < s.length ∧ s.getD j 0 = b := by
  obtain ⟨j, hj, hval⟩ := List.mem_iff_getElem.mp h
  exact ⟨j, hj, by rw [getD_bridge hj]; exact hval⟩

/-- On a sorted list containing `x`, `bisect_left` lands on an
occurrence of `x`. -/
theorem bisect_left_mem {a : List Nat} {x : Nat}
    (hs : List.Sorted (· ≤ ·) a) (hx : x ∈ a) :
    bisect_left a x < a.length ∧ a.getD (bisect_left a x) 0 = x := by
  obtain ⟨j, hjlen, hval⟩ := mem_imp_getD hx
  have hji : bisect_left a x ≤ j := by
    by_contra hcon
    have := bisect_left_lt (x := x) hs j (by omega)
    omega
  have hlt : bisect_left a x < a.length := Nat.lt_of_le_of_lt hji hjlen
  refine ⟨hlt, Nat.le_antisymm ?_ ?_⟩
  · calc a.getD (bisect_left a x) 0 ≤ a.getD j 0 :=
          sorted_getD_mono hs hji hjlen
      _ = x := hval
  · exact bisect_left_ge hs _ (le_refl _) hlt

/-- On a sorted list, `has` decides membership. -/
theorem has_iff_mem {a : List Nat} {x : Nat}
    (hs : List.Sorted (· ≤ ·) a) :
    has a x = true ↔ x ∈ a := by
  unfold has
  simp only [Bool.and_eq_true, bne_iff_ne, ne_eq, beq_iff_eq]
  constructor
  · rintro ⟨hne, hval⟩
    have hlt : bisect_left a x < a.length := by
      have := bisect_left_le_length a x; omega
    rw [getD_bridge hlt] at hval
    rw [← hval]
    exact List.getElem_mem hlt
  · intro hx
    obtain ⟨hlt, hval⟩ := bisect_left_mem hs hx
    exact ⟨by omega, hval⟩

/-- Inserting at `bisect_left` keeps a sorted list sorted. -/
theorem sorted_add {s : List Nat} (hs : List.Sorted (· ≤ ·) s)
    (v : Nat) : List.Sorted (· ≤ ·) (add s v) := by
  unfold add insert_at
  rw [List.Sorted, List.pairwise_append]
  refine ⟨hs.sublist (List.take_sublist _ _), ?_, ?_⟩
  · rw [List.pairwise_cons]
    refine ⟨?_, hs.sublist (List.drop_sublist _ _)⟩
    intro b hb
    obtain ⟨j, hij, hjlen, hval⟩ := mem_drop_imp hb
    rw [← hval]
    exact bisect_left_ge hs j hij hjlen
  · intro a ha b hb
    obtain ⟨j, hji, hjlen, hval⟩ := mem_take_imp ha
    have halt : a < v := by
      rw [← hval]; exact bisect_left_lt hs j hji
    rcases List.mem_cons.mp hb with rfl | hb
    · omega
    · obtain ⟨k, hik, hklen, hkval⟩ := mem_drop_imp hb
      have : v ≤ b := by
        rw [← hkval]; exact bisect_left_ge hs k hik hklen
      omega

theorem has_eq_true_iff {s : List Nat} {x : Nat} :
    has s x = true ↔
      bisect_left s x ≠ s.length ∧ s.getD (bisect_left s x) 0 = x := by
  unfold has
  simp [Bool.and_eq_true]

theorem get_eq_ite (s : List Nat) (x : Nat) :
    get s x =
      if bisect_left s x ≠ s.length ∧ s.getD (bisect_left s x) 0 = x
      then some (s.getD (bisect_left s x) 0) else none := rfl

/-- `add` always grows the length by exactly one, for any list. -/
theorem length_add (s : List Nat) (v : Nat) :
    (add s v).length = s.length + 1 := by
  unfold add insert_at
  have := bisect_left_le_length s v
  simp only [List.length_append, List.length_take, List.length_cons,
    List.length_drop]
  omega

/-- On a sorted list, the code's `bisect_left` computes the spec's
leftmost insertion point (the count of elements strictly below `v`). -/
theorem bisect_left_eq_leftmost {s : List Nat} (v : Nat)
    (hs : List.Sorted (· ≤ ·) s) :
    bisect_left s v = leftmost_insertion_point s v := by
  have hle := bisect_left_le_length s v
  unfold leftmost_insertion_point
  conv_rhs => rw [← List.take_append_drop (bisect_left s v) s]
  rw [List.countP_append]
  have h1 : (s.take (bisect_left s v)).countP (fun a => decide (a < v)) =
      (s.take (bisect_left s v)).length := by
    refine List.countP_eq_length.mpr ?_
    intro a ha
    obtain ⟨j, hji, hjlen, hval⟩ := mem_take_imp ha
    simpa [← hval] using bisect_left_lt hs j hji
  have h2 : (s.drop (bisect_left s v)).countP (fun a => decide (a < v)) =
      0 := by
    refine List.countP_eq_zero.mpr ?_
    intro a ha
    obtain ⟨j, hij, hjlen, hval⟩ := mem_drop_imp ha
    simpa [← hval] using bisect_left_ge hs j hij hjlen
  rw [h1, h2, List.length_take]
  omega

/-- `add` permutes the old contents plus the new element, always. -/
theorem add_perm (s : List Nat) (v : Nat) :
    List.Perm (add s v) (v :: s) := by
  unfold add insert_at
  have h : List.Perm
      (s.take (bisect_left s v) ++ v :: s.drop (bisect_left s v))
      (v :: (s.take (bisect_left s v) ++ s.drop (bisect_left s v))) :=
    List.perm_middle
  rw [List.take_append_drop] at h
  exact h

/-! ## Claims -/

/-- C1 (counterexample): the claim says the `is_sorted=false` constructor
deduplicates, but `__new__` only sorts (`sorted(data)`): constructing
from `[3, 3]` yields `[3, 3]`, which has a duplicate. -/
theorem claim1_counterexample :
    new [3, 3] false = [3, 3] ∧ ¬ (new [3, 3] false).Nodup := by
  decide

/-- C1 (amended): the `is_sorted=false` constructor sorts but does not
deduplicate; the result is duplicate-free exactly when the input
already contains no repeated values. -/
theorem claim1_nodup_iff (data : List Nat) :
    (new data false).Nodup ↔ data.Nodup := by
  have hp : List.Perm (new data false) data := by
    simpa [new] using List.perm_insertionSort (· ≤ ·) data
  exact hp.nodup_iff

theorem claim1_witness :
    (new [5, 1, 3] false).Nodup ∧ ¬ (new [4, 4] false).Nodup :=
  ⟨(claim1_nodup_iff [5, 1, 3]).mpr (by decide),
    fun h => absurd ((claim1_nodup_iff [4, 4]).mp h) (by decide)⟩

/-- C2: `add` keeps the elements in non-decreasing order. -/
theorem claim2_add_preserves_sorted (s : List Nat) (v : Nat)
    (hs : List.Sorted (· ≤ ·) s) : List.Sorted (· ≤ ·) (add s v) :=
  sorted_add hs v

theorem claim2_witness :
    List.Sorted (· ≤ ·) ([1, 3] : List Nat) ∧
      List.Sorted (· ≤ ·) (add [1, 3] 2) :=
  ⟨by decide, claim2_add_preserves_sorted [1, 3] 2 (by decide)⟩

/-- C3: immediately after `add x`, `has x` is true. -/
theorem claim3_has_after_add (s : List Nat) (x : Nat)
    (hs : List.Sorted (· ≤ ·) s) : has (add s x) x = true := by
  refine (has_iff_mem (sorted_add hs x)).mpr ?_
  unfold add insert_at
  exact List.mem_append.mpr (Or.inr (List.mem_cons_self _ _))

theorem claim3_witness :
    List.Sorted (· ≤ ·) ([1, 3] : List Nat) ∧
      has (add [1, 3] 2) 2 = true :=
  ⟨by decide, claim3_has_after_add [1, 3] 2 (by decide)⟩

/-- C4: `get x` returns `some x` when `has x` is true and `none` when
`has x` is false. -/
theorem claim4_get_has (s : List Nat) (x : Nat)
    (_hs : List.Sorted (· ≤ ·) s) :
    (has s x = true → get s x = some x) ∧
      (has s x = false → get s x = none) := by
  constructor
  · intro ht
    have h := has_eq_true_iff.mp ht
    rw [get_eq_ite, if_pos h, h.2]
  · intro hf
    rw [get_eq_ite, if_neg]
    intro hcon
    have ht := has_eq_true_iff.mpr hcon
    rw [ht] at hf
    exact absurd hf (by decide)

theorem claim4_witness :
    List.Sorted (· ≤ ·) ([1, 3] : List Nat) ∧
      ((has [1, 3] 3 = true → get [1, 3] 3 = some 3) ∧
        (has [1, 3] 3 = false → get [1, 3] 3 = none)) :=
  ⟨by decide, claim4_get_has [1, 3] 3 (by decide)⟩

/-- C6: the `is_sorted=false` constructor produces a sorted permutation
of its input. -/
theorem claim6_constructor_sorted_perm (data : List Nat) :
    List.Sorted (· ≤ ·) (new data false) ∧
      List.Perm (new data false) data := by
  constructor
  · simpa [new] using List.sorted_insertionSort (· ≤ ·) data
  · simpa [new] using List.perm_insertionSort (· ≤ ·) data

/-- C7: constructing with `is_sorted=true` from already ascending input
stores the input unchanged. -/
theorem claim7_presorted_identity (data : List Nat)
    (_hs : List.Sorted (· ≤ ·) data) : new data true = data := rfl

theorem claim7_witness :
    List.Sorted (· ≤ ·) ([1, 2, 2, 5] : List Nat) ∧
      new [1, 2, 2, 5] true = [1, 2, 2, 5] :=
  ⟨by decide, claim7_presorted_identity [1, 2, 2, 5] (by decide)⟩

/-- C5: adding a value already present grows the length by one and
leaves two adjacent equal copies of it. -/
theorem claim5_add_existing (s : List Nat) (v : Nat)
    (hs : List.Sorted (· ≤ ·) s) (hv : v ∈ s) :
    (add s v).length = s.length + 1 ∧
      ∃ k, k + 1 < (add s v).length ∧ (add s v).getD k 0 = v ∧
        (add s v).getD (k + 1) 0 = v := by
  obtain ⟨hlt, hval⟩ := bisect_left_mem hs hv
  have htk : (s.take (bisect_left s v)).length = bisect_left s v := by
    simp only [List.length_take]
    omega
  refine ⟨length_add s v, bisect_left s v, ?_, ?_, ?_⟩
  · rw [length_add]
    omega
  · show (insert_at s (bisect_left s v) v).getD (bisect_left s v) 0 = v
    unfold insert_at
    rw [List.getD_append_right _ _ _ _ (by omega), htk, Nat.sub_self]
    rfl
  · show (insert_at s (bisect_left s v) v).getD (bisect_left s v + 1) 0 = v
    unfold insert_at
    rw [List.getD_append_right _ _ _ _ (by omega), htk]
    have h1 : bisect_left s v + 1 - bisect_left s v = 1 := by omega
    rw [h1]
    show (s.drop (bisect_left s v)).getD 0 0 = v
    have hd : 0 < (s.drop (bisect_left s v)).length := by
      simp only [List.length_drop]
      omega
    rw [getD_bridge hd, List.getElem_drop]
    rw [getD_bridge hlt] at hval
    simpa using hval

theorem claim5_witness :
    List.Sorted (· ≤ ·) ([1, 3, 5] : List Nat) ∧ (3 : Nat) ∈ [1, 3, 5] ∧
      ((add [1, 3, 5] 3).length = 4 ∧
        ∃ k, k + 1 < (add [1, 3, 5] 3).length ∧
          (add [1, 3, 5] 3).getD k 0 = 3 ∧
          (add [1, 3, 5] 3).getD (k + 1) 0 = 3) :=
  ⟨by decide, by decide, claim5_add_existing [1, 3, 5] 3 (by decide) (by decide)⟩

/-- C8: `add`, `get` and `has` are total: the binary search index never
exceeds the length, the index is strictly in bounds whenever the
`i != len` guard lets `get`/`has` read the store, and `add` always
inserts (growing the length by one). -/
theorem claim8_operations_total (s : List Nat) (v : Nat) :
    bisect_left s v ≤ s.length ∧
      (has s v = true → bisect_left s v < s.length) ∧
      (get s v ≠ none → bisect_left s v < s.length) ∧
      (add s v).length = s.length + 1 := by
  have hle := bisect_left_le_length s v
  refine ⟨hle, ?_, ?_, length_add s v⟩
  · intro h
    have := (has_eq_true_iff.mp h).1
    omega
  · intro h
    rw [get_eq_ite] at h
    by_cases hc : bisect_left s v ≠ s.length ∧
        s.getD (bisect_left s v) 0 = v
    · omega
    · rw [if_neg hc] at h
      exact absurd rfl h

theorem claim8_witness :
    bisect_left [1, 3] 2 ≤ 2 ∧ (add [1, 3] 2).length = 3 := by
  have h := claim8_operations_total [1, 3] 2
  exact ⟨h.1, h.2.2.2⟩

/-- C9: the generic membership test (Python `in`, a linear scan
inherited from `array.array`) agrees with `has` on sorted contents. -/
theorem claim9_contains_agrees_has (s : List Nat) (v : Nat)
    (hs : List.Sorted (· ≤ ·) s) : s.contains v = has s v := by
  by_cases hm : v ∈ s
  · rw [(has_iff_mem hs).mpr hm]
    simp [hm]
  · have h1 : has s v = false := by
      cases h : has s v
      · rfl
      · exact absurd ((has_iff_mem hs).mp h) hm
    rw [h1]
    simp [hm]

theorem claim9_witness :
    List.Sorted (· ≤ ·) ([1, 3] : List Nat) ∧
      List.contains [1, 3] 2 = has [1, 3] 2 :=
  ⟨by decide, claim9_contains_agrees_has [1, 3] 2 (by decide)⟩

/-- C10: `add v` only inserts `v` at the leftmost insertion point —
the result is `take i ++ [v] ++ drop i` for `i` the count of elements
below `v`, and the multiset of elements is the old one plus `v`. -/
theorem claim10_add_frame (s : List Nat) (v : Nat)
    (hs : List.Sorted (· ≤ ·) s) :
    add s v = s.take (leftmost_insertion_point s v) ++
        v :: s.drop (leftmost_insertion_point s v) ∧
      List.Perm (add s v) (v :: s) := by
  refine ⟨?_, add_perm s v⟩
  rw [← bisect_left_eq_leftmost v hs]
  rfl

theorem claim10_witness :
    List.Sorted (· ≤ ·) ([1, 3, 5] : List Nat) ∧
      (add [1, 3, 5] 4 = List.take (leftmost_insertion_point [1, 3, 5] 4)
          [1, 3, 5] ++ 4 :: List.drop (leftmost_insertion_point [1, 3, 5] 4)
          [1, 3, 5] ∧
        List.Perm (add [1, 3, 5] 4) (4 :: [1, 3, 5])) :=
  ⟨by decide, claim10_add_frame [1, 3, 5] 4 (by decide)⟩

end SnowflakeList
